import Mathlib

/-!
Verification of `zipref.py`, a ZIP64 archiver that favours copy-on-write
cloning of file data into the archive and falls back to a streamed copy.

The Python source is shallowly embedded below.  Bytes are naturals
(with `< 256` hypotheses where relevant), byte strings are `List ℕ`,
machine integers are `ℕ`/`ℤ` with explicit `% 2 ^ w` where the source
packs fixed-width fields, the destination file is a function `ℕ → ℕ`
from absolute offset to byte together with an explicit write position,
and `os.read` results are driven by an explicit oracle so that
transient zero-length reads can be modelled.  Python's `int/int` true
division (used in the alignment computation of `execute`) returns an
IEEE-754 double; it is embedded exactly via round-to-nearest-even at
53 significant bits, which is faithful for all magnitudes that arise
here (no overflow or subnormals).
-/

namespace ZipRef

/-- Little-endian encoding of a 16-bit field, as produced by
`struct.pack` format character `H` (the source only packs in-range
values; out-of-range values are reduced mod 2^16). -/
def u16le (n : ℕ) : List ℕ := [n % 256, n / 256 % 256]

/-- Little-endian encoding of a 32-bit field (`struct.pack` format `I`). -/
def u32le (n : ℕ) : List ℕ :=
  [n % 256, n / 256 % 256, n / 65536 % 256, n / 16777216 % 256]

/-- Little-endian encoding of a 64-bit field (`struct.pack` format `Q`). -/
def u64le (n : ℕ) : List ℕ := u32le (n % 4294967296) ++ u32le (n / 4294967296)

/-- Value denoted by a little-endian byte list; used to state that the
true 64-bit quantities are recoverable from the packed fields. -/
def lePack (bs : List ℕ) : ℕ := bs.foldr (fun b acc => b + 256 * acc) 0

/-- Broken-down local time, the result of `time.localtime` (an external
OS facility; the archiver only reads these six fields). -/
structure Tm where
  tm_year : ℕ
  tm_mon : ℕ
  tm_mday : ℕ
  tm_hour : ℕ
  tm_min : ℕ
  tm_sec : ℕ
deriving DecidableEq, Repr

/-- `get_dos_date_time`, lines 48-54.  `time.localtime` is external, so
the embedding takes its result (the broken-down local time) directly. -/
def get_dos_date_time (tm : Tm) : ℕ × ℕ :=
  (((tm.tm_year - 1980) <<< 9) ||| (tm.tm_mon <<< 5) ||| tm.tm_mday,
   (tm.tm_hour <<< 11) ||| (tm.tm_min <<< 5) ||| (tm.tm_sec >>> 1))

/-- The reflected CRC-32 polynomial used by `zlib.crc32`. -/
def crcPoly : ℕ := 0xEDB88320

/-- One bit step of the reflected CRC-32 computation. -/
def crcBitStep (c : ℕ) : ℕ := if c % 2 = 1 then (c / 2) ^^^ crcPoly else c / 2

/-- One byte step of the reflected CRC-32 computation. -/
def crcByteStep (c b : ℕ) : ℕ :=
  (List.range 8).foldl (fun acc _ => crcBitStep acc) (c ^^^ b % 256)

/-- `zlib.crc32 data crc`: fold `data` into the running CRC value
`start`, with the usual pre- and post-complement. -/
def crc32 (data : List ℕ) (start : ℕ) : ℕ :=
  (data.foldl crcByteStep (start ^^^ 0xFFFFFFFF)) ^^^ 0xFFFFFFFF

/-- `compute_crc32`, lines 42-46: fold an iterable of chunks with
`crc = zlib.crc32(data, crc)` starting from 0. -/
def compute_crc32 (it : List (List ℕ)) : ℕ :=
  it.foldl (fun crc data => crc32 data crc) 0

/-- Auxiliary loop of `chunk_iterator`, lines 23-30.  `ret i` is the
byte count the i-th `os.read` call offers (the OS's choice); the bytes
actually returned are capped by the requested `min chunk_size length`
and by the bytes available in the source file `src` after the current
read position.  `fuel` bounds the number of loop iterations; the real
loop has no bound, so termination theorems exhibit a sufficient fuel. -/
def chunkIterAux (ret : ℕ → ℕ) (src : List ℕ) (csz : ℕ) :
    ℕ → ℕ → ℕ → ℕ → Option (List (List ℕ))
  | 0, _, _, r => if r = 0 then some [] else none
  | fuel + 1, i, pos, r =>
    if r = 0 then some [] else
    let req := min csz r
    let k := min (ret i) (min req (src.length - pos))
    if k = 0 then chunkIterAux ret src csz fuel (i + 1) pos r
    else
      match chunkIterAux ret src csz fuel (i + 1) (pos + k) (r - k) with
      | none => none
      | some rest => some (((src.drop pos).take k) :: rest)

/-- `chunk_iterator(fd, position, length, chunk_size)`: seek to
`position` and repeatedly read at most `min chunk_size remaining`
bytes, retrying on empty reads, until `length` bytes were yielded. -/
def chunk_iterator (fuel : ℕ) (ret : ℕ → ℕ) (src : List ℕ)
    (position length csz : ℕ) : Option (List (List ℕ)) :=
  chunkIterAux ret src csz fuel 0 position length

/-- Deterministic chunking of a byte list into pieces of size `csz`:
what `chunk_iterator` yields when every read is answered in full,
which is how a regular file behaves.  The first argument is fuel for
structural recursion; `chunksOf` supplies enough. -/
def chunksOfAux (csz : ℕ) : ℕ → List ℕ → List (List ℕ)
  | _, [] => []
  | 0, _ => []
  | fuel + 1, bs => bs.take csz :: chunksOfAux csz fuel (bs.drop csz)

/-- Split a byte list into chunks of at most `csz` bytes. -/
def chunksOf (csz : ℕ) (bs : List ℕ) : List (List ℕ) :=
  chunksOfAux csz bs.length bs

/-- Auxiliary loop of `progress`, lines 32-40, threading `position` and
`written_at`.  Returns the yielded chunks together with the number of
progress dots printed. -/
def progressAux (each : ℕ) : List (List ℕ) → ℕ → ℕ → List (List ℕ) × ℕ
  | [], _, _ => ([], 0)
  | data :: it, position, written_at =>
    let position2 := position + data.length
    if each ≤ position2 - written_at then
      let r := progressAux each it position2 position2
      (data :: r.1, r.2 + 1)
    else
      let r := progressAux each it position2 written_at
      (data :: r.1, r.2)

/-- `progress(it, each)`: re-yield every chunk of `it`, printing a dot
whenever `each` further bytes have passed through. -/
def progress (it : List (List ℕ)) (each : ℕ) : List (List ℕ) × ℕ :=
  progressAux each it 0 0

/-- Overwrite the destination content `d` with the byte list `bs`
starting at absolute offset `pos` (the effect of `os.write`). -/
def writeBytesTo (d : ℕ → ℕ) (pos : ℕ) (bs : List ℕ) : ℕ → ℕ :=
  fun i => if pos ≤ i ∧ i < pos + bs.length then bs.getD (i - pos) 0 else d i

/-- `write_all(fd, it)`, lines 74-76: write each chunk at the current
file position, which advances with every write.  Returns the new
content and position. -/
def write_all (d : ℕ → ℕ) (pos : ℕ) : List (List ℕ) → (ℕ → ℕ) × ℕ
  | [] => (d, pos)
  | c :: cs => write_all (writeBytesTo d pos c) (pos + c.length) cs

/-- Bit length with explicit fuel (structural recursion so that the
kernel can evaluate it). -/
def bitlenAux : ℕ → ℕ → ℕ
  | 0, _ => 0
  | fuel + 1, n => if n = 0 then 0 else bitlenAux fuel (n / 2) + 1

/-- Number of binary digits of `n` (0 for 0). -/
def bitlen (n : ℕ) : ℕ := bitlenAux n n

/-- Round the positive rational `num / den` to the nearest integer,
ties to even (`den` positive). -/
def rne (num den : ℕ) : ℕ :=
  let f := num / den
  let r2 := 2 * (num % den)
  if r2 < den then f
  else if den < r2 then f + 1
  else if f % 2 = 0 then f else f + 1

/-- Floor of the base-2 logarithm of `a / b` for `a, b ≥ 1`. -/
def qExp (a b : ℕ) : ℤ :=
  let d : ℤ := (bitlen a : ℤ) - (bitlen b : ℤ)
  if b * 2 ^ d.toNat ≤ a * 2 ^ (-d).toNat then d else d - 1

/-- Embedding of Python's `int(a / b)` on nonnegative integers: `a / b`
is IEEE-754 double true division (the exact rational quotient rounded
to 53 significant bits, nearest, ties to even — what CPython computes),
then `int` truncates toward zero.  Faithful wherever the double
neither overflows nor becomes subnormal, which covers every magnitude
relevant to the archiver. -/
def pyTruncDiv (a b : ℕ) : ℕ :=
  if a = 0 ∨ b = 0 then 0 else
  let t : ℤ := qExp a b - 52
  if 0 ≤ t then rne a (b * 2 ^ t.toNat) * 2 ^ t.toNat
  else rne (a * 2 ^ (-t).toNat) b / 2 ^ (-t).toNat

/-- Line 94 of `execute`:
`offset = (int((offset + len(header) + alignment - 1) / alignment) * alignment) - len(header)`
with `eof` the current end-of-file offset returned by the preceding
`lseek`, `hlen` the local header length and `alignment` the block
size.  The division is Python float true division, not `//`. -/
def pyPlacement (eof hlen alignment : ℕ) : ℤ :=
  (pyTruncDiv (eof + hlen + alignment - 1) alignment : ℤ) * alignment - hlen

/-- Modelled from the spec: the header placement the spec describes,
namely the smallest offset at or after the current end of file whose
data start (placement plus header length) is a multiple of the
alignment, i.e. exact integer ceiling division. -/
def specPlacement (eof hlen alignment : ℕ) : ℤ :=
  ((eof + hlen + alignment - 1) / alignment : ℕ) * (alignment : ℤ) - hlen

/-- Valid second byte of a three-byte UTF-8 sequence with lead byte
`b0` (RFC 3629 table, as enforced by CPython's decoder). -/
def cont3 (b0 b1 : ℕ) : Prop :=
  (b0 = 0xE0 ∧ 0xA0 ≤ b1 ∧ b1 ≤ 0xBF) ∨
  (0xE1 ≤ b0 ∧ b0 ≤ 0xEC ∧ 0x80 ≤ b1 ∧ b1 ≤ 0xBF) ∨
  (b0 = 0xED ∧ 0x80 ≤ b1 ∧ b1 ≤ 0x9F) ∨
  (0xEE ≤ b0 ∧ b0 ≤ 0xEF ∧ 0x80 ≤ b1 ∧ b1 ≤ 0xBF)

instance (b0 b1 : ℕ) : Decidable (cont3 b0 b1) := by
  unfold cont3; infer_instance

/-- Valid second byte of a four-byte UTF-8 sequence with lead byte
`b0`. -/
def cont4 (b0 b1 : ℕ) : Prop :=
  (b0 = 0xF0 ∧ 0x90 ≤ b1 ∧ b1 ≤ 0xBF) ∨
  (0xF1 ≤ b0 ∧ b0 ≤ 0xF3 ∧ 0x80 ≤ b1 ∧ b1 ≤ 0xBF) ∨
  (b0 = 0xF4 ∧ 0x80 ≤ b1 ∧ b1 ≤ 0x8F)

instance (b0 b1 : ℕ) : Decidable (cont4 b0 b1) := by
  unfold cont4; infer_instance

/-- Standard UTF-8 encoding of one code point (partial function on
scalar values; callers exclude surrogates). -/
def utf8EncodeChar (c : ℕ) : List ℕ :=
  if c < 0x80 then [c]
  else if c < 0x800 then [0xC0 + c / 64, 0x80 + c % 64]
  else if c < 0x10000 then [0xE0 + c / 4096, 0x80 + c / 64 % 64, 0x80 + c % 64]
  else [0xF0 + c / 262144, 0x80 + c / 4096 % 64, 0x80 + c / 64 % 64, 0x80 + c % 64]

/-- `s.encode('utf-8', errors='surrogateescape')` on one code point:
the escape surrogates U+DC80..U+DCFF become the original byte, other
surrogates raise (`none`), everything else is plain UTF-8. -/
def encodeSEChar (c : ℕ) : Option (List ℕ) :=
  if 0xDC80 ≤ c ∧ c ≤ 0xDCFF then some [c - 0xDC00]
  else if 0xD800 ≤ c ∧ c ≤ 0xDFFF then none
  else if c < 0x110000 then some (utf8EncodeChar c)
  else none

/-- `name.encode('utf-8', errors='surrogateescape')`, used on line 58
and line 65; `none` models a raised `UnicodeEncodeError`. -/
def encodeSE : List ℕ → Option (List ℕ)
  | [] => some []
  | c :: cs =>
    match encodeSEChar c, encodeSE cs with
    | some b, some r => some (b ++ r)
    | _, _ => none

/-- `bytes.decode('utf-8', errors='surrogateescape')`: valid UTF-8
sequences decode normally, every undecodable byte b (necessarily in
0x80..0xFF) becomes the lone surrogate U+DC00+b.  CPython escapes each
byte of a maximal invalid subpart individually, which coincides with
this formulation that re-examines the input one byte further on.  The
first argument is fuel for structural recursion; each step consumes at
least one byte, so `decodeSE` below supplies enough. -/
def decodeSEAux : ℕ → List ℕ → List ℕ
  | 0, _ => []
  | _, [] => []
  | fuel + 1, b0 :: tl =>
    if b0 < 0x80 then b0 :: decodeSEAux fuel tl
    else if 0xC2 ≤ b0 ∧ b0 ≤ 0xDF then
      match tl with
      | b1 :: tl1 =>
        if 0x80 ≤ b1 ∧ b1 ≤ 0xBF then
          ((b0 - 0xC0) * 64 + (b1 - 0x80)) :: decodeSEAux fuel tl1
        else (0xDC00 + b0) :: decodeSEAux fuel tl
      | [] => [0xDC00 + b0]
    else if 0xE0 ≤ b0 ∧ b0 ≤ 0xEF then
      match tl with
      | b1 :: b2 :: tl2 =>
        if cont3 b0 b1 ∧ 0x80 ≤ b2 ∧ b2 ≤ 0xBF then
          ((b0 - 0xE0) * 4096 + (b1 - 0x80) * 64 + (b2 - 0x80)) ::
            decodeSEAux fuel tl2
        else (0xDC00 + b0) :: decodeSEAux fuel tl
      | _ => (0xDC00 + b0) :: decodeSEAux fuel tl
    else if 0xF0 ≤ b0 ∧ b0 ≤ 0xF4 then
      match tl with
      | b1 :: b2 :: b3 :: tl3 =>
        if cont4 b0 b1 ∧ 0x80 ≤ b2 ∧ b2 ≤ 0xBF ∧ 0x80 ≤ b3 ∧ b3 ≤ 0xBF then
          ((b0 - 0xF0) * 262144 + (b1 - 0x80) * 4096 + (b2 - 0x80) * 64 +
            (b3 - 0x80)) :: decodeSEAux fuel tl3
        else (0xDC00 + b0) :: decodeSEAux fuel tl
      | _ => (0xDC00 + b0) :: decodeSEAux fuel tl
    else (0xDC00 + b0) :: decodeSEAux fuel tl

/-- `bytes.decode('utf-8', errors='surrogateescape')` on a whole byte
string: the platform path decoding (PEP 383). -/
def decodeSE (bs : List ℕ) : List ℕ := decodeSEAux bs.length bs

/-- The fields of `os.stat_result` the archiver reads: `st_size`,
`st_mtime` (embedded as its broken-down local time, the only use) and
whether `stat.S_ISREG(st_mode)` holds. -/
structure StatResult where
  st_size : ℕ
  st_mtime_tm : Tm
  st_isreg : Bool
deriving DecidableEq, Repr

/-- `make_file_header(name, st, crc)`, lines 56-61.  `none` models a
raised `UnicodeEncodeError` from `name.encode`. -/
def make_file_header (name : List ℕ) (st : StatResult) (crc : ℕ) :
    Option (List ℕ) :=
  match encodeSE name with
  | none => none
  | some bname =>
    let dos_tm := get_dos_date_time st.st_mtime_tm
    let extra := u16le 1 ++ u16le 16 ++ u64le st.st_size ++ u64le st.st_size
    let fixed_header :=
      u32le 0x04034b50 ++ u16le 45 ++ u16le (1 <<< 11) ++ u16le 0 ++
      u16le dos_tm.2 ++ u16le dos_tm.1 ++ u32le crc ++ u32le 0xffffffff ++
      u32le 0xffffffff ++ u16le bname.length ++ u16le extra.length
    some (fixed_header ++ bname ++ extra)

/-- `make_central_header(name, st, crc, offset)`, lines 63-68. -/
def make_central_header (name : List ℕ) (st : StatResult) (crc offset : ℕ) :
    Option (List ℕ) :=
  match encodeSE name with
  | none => none
  | some bname =>
    let dos_tm := get_dos_date_time st.st_mtime_tm
    let extra := u16le 1 ++ u16le 24 ++ u64le st.st_size ++ u64le st.st_size ++
      u64le offset
    let fixed_header :=
      u32le 0x02014b50 ++ u16le 45 ++ u16le 45 ++ u16le (1 <<< 11) ++ u16le 0 ++
      u16le dos_tm.2 ++ u16le dos_tm.1 ++ u32le crc ++ u32le 0xffffffff ++
      u32le 0xffffffff ++ u16le bname.length ++ u16le extra.length ++
      u16le 0 ++ u16le 0 ++ u16le 0 ++ u32le 0 ++ u32le 0xffffffff
    some (fixed_header ++ bname ++ extra)

/-- Lines 95-106 of `execute`, for one entry, acting on the
destination content `d`: seek to the placement `offset`, write the
local header (leaving the position at `offset + header.length`), then
try `clone_range(fd2, 0, size, fd, offset + len(header))`.
`cloneOk = false` means the `ioctl` raised `OSError`; the handler
falls back to `write_all(fd, progress(chunk_iterator(fd2, 0, size)))`
at the current position.  `ret`/`fuel` drive the fallback's reads as
in `chunk_iterator`; `none` means the loop did not finish in `fuel`
iterations.  A successful clone maps the destination range
`[offset + header.length, offset + header.length + size)` onto the
first `size` source bytes. -/
def entryWrite (cloneOk : Bool) (fuel : ℕ) (ret : ℕ → ℕ) (d : ℕ → ℕ)
    (offset : ℕ) (header src : List ℕ) (size : ℕ) : Option (ℕ → ℕ) :=
  let d1 := writeBytesTo d offset header
  if cloneOk then some (writeBytesTo d1 (offset + header.length) (src.take size))
  else
    match chunk_iterator fuel ret src 0 size 63356 with
    | none => none
    | some cs =>
      some (write_all d1 (offset + header.length) (progress cs 33554432).1).1

/-- One input path as `execute` sees it: the path string (code
points), its `lstat` result and the file's byte content.  For a real
regular file `st.st_size` equals `content.length`. -/
structure FileInfo where
  path : List ℕ
  st : StatResult
  content : List ℕ
deriving DecidableEq, Repr

/-- One element of the `datas` list accumulated by `execute`
(line 112): `(path, st, crc, offset)`. -/
structure EntryData where
  path : List ℕ
  st : StatResult
  crc : ℕ
  offset : ℕ
deriving DecidableEq, Repr

/-- The collection loop of `execute` (lines 81-112) restricted to the
metadata it accumulates: skip non-regular paths, stream the file to
compute its CRC-32 (a regular file answers every read in full, so the
chunks are `chunksOf 63356` of the first `st_size` bytes), build the
local header, place it with the float alignment computation of line
94, and record `(path, st, crc, offset)`.  The end-of-file offset
(`lseek(fd, 0, SEEK_END)`, line 93) is threaded through: both clone
and fallback leave the file extended to at least
`offset + header.length + st_size`.  `none` models a raised encoding
error. -/
def collectDatas (alignment : ℕ) :
    List FileInfo → ℕ → Option (List EntryData × ℕ)
  | [], eof => some ([], eof)
  | f :: fs, eof =>
    if f.st.st_isreg = false then collectDatas alignment fs eof
    else
      let crc := compute_crc32
        (progress (chunksOf 63356 (f.content.take f.st.st_size)) 33554432).1
      match make_file_header f.path f.st crc with
      | none => none
      | some header =>
        let offset := (pyPlacement eof header.length alignment).toNat
        match collectDatas alignment fs
          (max eof (offset + header.length + f.st.st_size)) with
        | none => none
        | some (rest, eofF) =>
          some (⟨f.path, f.st, crc, offset⟩ :: rest, eofF)

/-- The central-directory pass of `execute` (lines 115-117): one
central header per collected entry, in list order, concatenated in
write order. -/
def centralBytesOf : List EntryData → Option (List ℕ)
  | [] => some []
  | e :: es =>
    match make_central_header e.path e.st e.crc e.offset, centralBytesOf es with
    | some h, some r => some (h ++ r)
    | _, _ => none

/-- Everything `execute` has produced when it returns: the collected
entries, the central directory bytes and offsets, and the three
trailer records. -/
structure ExecResult where
  datas : List EntryData
  centralBytes : List ℕ
  centralStart : ℕ
  centralEnd : ℕ
  eocd64 : List ℕ
  locator : List ℕ
  eocd : List ℕ
deriving DecidableEq, Repr

/-- `execute(fd, paths, alignment)`, lines 78-127, restricted to the
metadata and trailer bytes (the per-entry destination bytes are
covered by `entryWrite`).  After the collection loop,
`central_start = lseek(fd, 0, SEEK_END)` is the file size, the central
headers are written sequentially, `central_end` is the position after
them, and the three trailer records are packed exactly as on lines
120-126. -/
def executeModel (alignment : ℕ) (files : List FileInfo) : Option ExecResult :=
  match collectDatas alignment files 0 with
  | none => none
  | some (datas, eof) =>
    match centralBytesOf datas with
    | none => none
    | some cb =>
      let central_start := eof
      let central_end := central_start + cb.length
      some ⟨datas, cb, central_start, central_end,
        u32le 0x06064b50 ++ u64le 44 ++ u16le 45 ++ u16le 45 ++ u32le 0 ++
          u32le 0 ++ u64le datas.length ++ u64le datas.length ++
          u64le (central_end - central_start) ++ u64le central_start,
        u32le 0x07064b50 ++ u32le 0 ++ u64le central_end ++ u32le 1,
        u32le 0x06054b50 ++ u16le 0 ++ u16le 0 ++ u16le 0xffff ++
          u16le 0xffff ++ u32le 0xffffffff ++ u32le 0xffffffff ++ u16le 0⟩

/-! ### Helper lemmas -/

lemma xor_mask_cancel (x : ℕ) : x ^^^ 0xFFFFFFFF ^^^ 0xFFFFFFFF = x := by
  rw [Nat.xor_assoc, Nat.xor_self, Nat.xor_zero]

lemma crc32_nil (s : ℕ) : crc32 [] s = s := by
  unfold crc32
  exact xor_mask_cancel s

lemma crc32_append (a b : List ℕ) (s : ℕ) :
    crc32 (a ++ b) s = crc32 b (crc32 a s) := by
  unfold crc32
  rw [xor_mask_cancel, List.foldl_append]

lemma foldl_crc32_eq (it : List (List ℕ)) :
    ∀ s, it.foldl (fun crc data => crc32 data crc) s = crc32 it.flatten s := by
  induction it with
  | nil => intro s; simp [crc32_nil]
  | cons a it ih =>
    intro s
    simp only [List.foldl_cons, List.flatten_cons, crc32_append, ih]

lemma compute_crc32_eq_join (it : List (List ℕ)) :
    compute_crc32 it = crc32 it.flatten 0 :=
  foldl_crc32_eq it 0

lemma progressAux_fst (each : ℕ) :
    ∀ (it : List (List ℕ)) (pos w : ℕ), (progressAux each it pos w).1 = it := by
  intro it
  induction it with
  | nil => intro pos w; rfl
  | cons data it ih =>
    intro pos w
    simp only [progressAux]
    split <;> simp [ih]

lemma progress_fst (it : List (List ℕ)) (each : ℕ) :
    (progress it each).1 = it :=
  progressAux_fst each it 0 0

lemma chunkIterAux_sound (ret : ℕ → ℕ) (src : List ℕ) (csz : ℕ) :
    ∀ (fuel i pos r : ℕ) (cs : List (List ℕ)),
      chunkIterAux ret src csz fuel i pos r = some cs →
      pos + r ≤ src.length →
      cs.flatten = (src.drop pos).take r ∧ ∀ c ∈ cs, c.length ≤ csz := by
  intro fuel
  induction fuel with
  | zero =>
    intro i pos r cs h hle
    by_cases hr : r = 0
    · subst hr
      simp [chunkIterAux] at h
      subst h
      simp
    · simp [chunkIterAux, if_neg hr] at h
  | succ fuel ih =>
    intro i pos r cs h hle
    by_cases hr : r = 0
    · subst hr
      simp [chunkIterAux] at h
      subst h
      simp
    · simp only [chunkIterAux, if_neg hr] at h
      by_cases hk : min (ret i) (min (min csz r) (src.length - pos)) = 0
      · rw [if_pos hk] at h
        exact ih (i + 1) pos r cs h hle
      · rw [if_neg hk] at h
        set k := min (ret i) (min (min csz r) (src.length - pos)) with hkdef
        have hk1 : 1 ≤ k := by omega
        have hkr : k ≤ r := by omega
        cases hrec : chunkIterAux ret src csz fuel (i + 1) (pos + k) (r - k) with
        | none => rw [hrec] at h; simp at h
        | some rest =>
          rw [hrec] at h
          simp only [Option.some.injEq] at h
          subst h
          have hle2 : pos + k + (r - k) ≤ src.length := by omega
          obtain ⟨hflat, hlen⟩ := ih (i + 1) (pos + k) (r - k) rest hrec hle2
          constructor
          · simp only [List.flatten_cons, hflat]
            rw [show r = k + (r - k) by omega, List.take_add, List.drop_drop]
            rw [show k + (r - k) - k = r - k by omega]
          · intro c hc
            rcases List.mem_cons.mp hc with hc | hc
            · subst hc
              simp only [List.length_take]
              omega
            · exact hlen c hc

lemma chunkIterAux_total (ret : ℕ → ℕ) (src : List ℕ) (csz : ℕ)
    (hcsz : 0 < csz) :
    ∀ (fuel i pos r : ℕ),
      pos + r ≤ src.length →
      r ≤ (List.range fuel).countP (fun j => ret (i + j) != 0) →
      (chunkIterAux ret src csz fuel i pos r).isSome := by
  intro fuel
  induction fuel with
  | zero =>
    intro i pos r hle hcount
    simp only [List.range_zero, List.countP_nil, Nat.le_zero] at hcount
    subst hcount
    simp [chunkIterAux]
  | succ fuel ih =>
    intro i pos r hle hcount
    by_cases hr : r = 0
    · subst hr
      simp [chunkIterAux]
    · have hsplit : (List.range (fuel + 1)).countP (fun j => ret (i + j) != 0) =
          (if ret i != 0 then 1 else 0) +
          (List.range fuel).countP (fun j => ret (i + 1 + j) != 0) := by
        rw [List.range_succ_eq_map, List.countP_cons, List.countP_map]
        have harg : ((fun j => ret (i + j) != 0) ∘ Nat.succ) =
            (fun j => ret (i + 1 + j) != 0) := by
          funext j
          simp only [Function.comp]
          rw [show i + (j + 1) = i + 1 + j by omega]
        rw [harg]
        simp only [Nat.add_zero]
        omega
      rw [hsplit] at hcount
      simp only [chunkIterAux, if_neg hr]
      by_cases hret : ret i = 0
      · have hk : min (ret i) (min (min csz r) (src.length - pos)) = 0 := by
          simp [hret]
        rw [if_pos hk]
        apply ih (i + 1) pos r hle
        have hz : (if ret i != 0 then 1 else 0) = 0 := by simp [hret]
        omega
      · have hk0 : min (ret i) (min (min csz r) (src.length - pos)) ≠ 0 := by
          simp only [Nat.min_def]
          split_ifs <;> omega
        rw [if_neg hk0]
        set k := min (ret i) (min (min csz r) (src.length - pos)) with hkdef
        have hkr : k ≤ r := by omega
        have hrec : (chunkIterAux ret src csz fuel (i + 1) (pos + k)
            (r - k)).isSome := by
          apply ih (i + 1) (pos + k) (r - k) (by omega)
          have : (if ret i != 0 then 1 else 0) = 1 := by simp [hret]
          omega
        obtain ⟨rest, hrest⟩ := Option.isSome_iff_exists.mp hrec
        rw [hrest]
        rfl

lemma writeBytesTo_nil (d : ℕ → ℕ) (pos : ℕ) : writeBytesTo d pos [] = d := by
  funext i
  simp only [writeBytesTo, List.length_nil, Nat.add_zero]
  rw [if_neg (by omega)]

lemma writeBytesTo_append (d : ℕ → ℕ) (pos : ℕ) (a b : List ℕ) :
    writeBytesTo d pos (a ++ b) =
      writeBytesTo (writeBytesTo d pos a) (pos + a.length) b := by
  funext i
  simp only [writeBytesTo, List.length_append]
  by_cases hb : pos + a.length ≤ i ∧ i < pos + a.length + b.length
  · rw [if_pos (by omega), if_pos hb]
    rw [List.getD_append_right _ _ _ _ (by omega)]
    congr 1
    omega
  · rw [if_neg hb]
    by_cases ha : pos ≤ i ∧ i < pos + a.length
    · rw [if_pos (by omega), if_pos ha]
      exact List.getD_append _ _ _ _ (by omega)
    · rw [if_neg (by omega), if_neg ha]

lemma write_all_eq (cs : List (List ℕ)) :
    ∀ (d : ℕ → ℕ) (pos : ℕ),
      write_all d pos cs = (writeBytesTo d pos cs.flatten,
        pos + cs.flatten.length) := by
  induction cs with
  | nil =>
    intro d pos
    simp [write_all, writeBytesTo_nil]
  | cons c cs ih =>
    intro d pos
    simp only [write_all, List.flatten_cons, ih, writeBytesTo_append,
      List.length_append]
    rw [Nat.add_assoc]

lemma writeBytesTo_read (d : ℕ → ℕ) (pos : ℕ) (bs : List ℕ) (i : ℕ)
    (h : i < bs.length) : writeBytesTo d pos bs (pos + i) = bs.getD i 0 := by
  simp only [writeBytesTo]
  rw [if_pos ⟨by omega, by omega⟩]
  congr 1
  omega

/-- C6: for every descriptor state, start position and requested
length, `chunk_iterator` yields chunks of at most `chunk_size` bytes
whose concatenation is exactly the requested byte range (so the total
yielded length equals the requested length), retrying rather than
stopping on zero-length reads, and it terminates once the length is
consumed — provided the source holds that many bytes from the start
position and the reads eventually supply them (at least `length` of
the first `fuel` reads offer a nonzero byte count). -/
theorem C6_chunk_iterator_exact (fuel : ℕ) (ret : ℕ → ℕ) (src : List ℕ)
    (position length csz : ℕ) (hcsz : 0 < csz)
    (hsrc : position + length ≤ src.length)
    (hret : length ≤ (List.range fuel).countP (fun j => ret j != 0)) :
    (chunk_iterator fuel ret src position length csz).isSome = true ∧
    ((chunk_iterator fuel ret src position length csz).getD []).flatten =
      (src.drop position).take length ∧
    ((chunk_iterator fuel ret src position length csz).getD []).flatten.length =
      length ∧
    ((chunk_iterator fuel ret src position length csz).getD []).all
      (fun c => c.length ≤ csz) = true := by
  have hsome : (chunk_iterator fuel ret src position length csz).isSome := by
    apply chunkIterAux_total ret src csz hcsz fuel 0 position length hsrc
    simpa using hret
  obtain ⟨cs, hcs⟩ := Option.isSome_iff_exists.mp hsome
  obtain ⟨hflat, hlen⟩ :=
    chunkIterAux_sound ret src csz fuel 0 position length cs hcs hsrc
  rw [chunk_iterator] at hcs ⊢
  rw [hcs]
  refine ⟨rfl, hflat, ?_, ?_⟩
  · simp only [Option.getD_some, hflat, List.length_take, List.length_drop]
    omega
  · simp only [Option.getD_some, List.all_eq_true, decide_eq_true_eq]
    exact hlen

/-- Witness for C6: a source of five bytes read with a transient
zero-length read before each successful read. -/
theorem C6_chunk_iterator_exact_witness :
    (chunk_iterator 12 (fun j => j % 2) [10, 20, 30, 40, 50] 1 4 2).isSome
        = true ∧
    ((chunk_iterator 12 (fun j => j % 2) [10, 20, 30, 40, 50] 1 4 2).getD
        []).flatten = ([10, 20, 30, 40, 50].drop 1).take 4 ∧
    ((chunk_iterator 12 (fun j => j % 2) [10, 20, 30, 40, 50] 1 4 2).getD
        []).flatten.length = 4 ∧
    ((chunk_iterator 12 (fun j => j % 2) [10, 20, 30, 40, 50] 1 4 2).getD
        []).all (fun c => c.length ≤ 2) = true :=
  C6_chunk_iterator_exact 12 (fun j => j % 2) [10, 20, 30, 40, 50] 1 4 2
    (by decide) (by decide) (by decide)

/-- C2: when the clone request raises an `OSError`, `execute` falls
back to the streamed chunked copy, writing the source bytes at
destination position `offset + header.length` (the aligned data
start): the error is not propagated (the fallback still produces a
result), the resulting destination contents are identical to those of
a successful clone, and the destination byte range
`[offset + header.length, offset + header.length + size)` holds
exactly the source file's bytes.  The hypotheses say the source file
really holds `size` bytes and the reads eventually deliver them. -/
theorem C2_fallback_copy_equiv (fuel : ℕ) (ret : ℕ → ℕ) (d : ℕ → ℕ)
    (offset : ℕ) (header src : List ℕ) (size : ℕ)
    (hsize : size ≤ src.length)
    (hret : size ≤ (List.range fuel).countP (fun j => ret j != 0)) :
    entryWrite false fuel ret d offset header src size =
      entryWrite true fuel ret d offset header src size ∧
    (entryWrite false fuel ret d offset header src size).isSome = true ∧
    ∀ i, i < size →
      ((entryWrite false fuel ret d offset header src size).getD d)
        (offset + header.length + i) = src.getD i 0 := by
  have hsome : (chunk_iterator fuel ret src 0 size 63356).isSome := by
    apply chunkIterAux_total ret src 63356 (by omega) fuel 0 0 size (by omega)
    simpa using hret
  obtain ⟨cs, hcs⟩ := Option.isSome_iff_exists.mp hsome
  obtain ⟨hflat, _⟩ :=
    chunkIterAux_sound ret src 63356 fuel 0 0 size cs hcs (by omega)
  simp only [List.drop_zero] at hflat
  have hfalse : entryWrite false fuel ret d offset header src size =
      some (writeBytesTo (writeBytesTo d offset header)
        (offset + header.length) (src.take size)) := by
    simp only [entryWrite, Bool.false_eq_true, if_false, chunk_iterator] at *
    rw [hcs]
    dsimp only
    rw [progress_fst, write_all_eq, hflat]
  have htrue : entryWrite true fuel ret d offset header src size =
      some (writeBytesTo (writeBytesTo d offset header)
        (offset + header.length) (src.take size)) := rfl
  refine ⟨hfalse.trans htrue.symm, by rw [hfalse]; rfl, ?_⟩
  intro i hi
  rw [hfalse]
  simp only [Option.getD_some]
  have hlt : i < (src.take size).length := by
    simp only [List.length_take]
    omega
  rw [writeBytesTo_read _ _ _ _ hlt]
  rw [List.getD_eq_getElem _ _ hlt, List.getD_eq_getElem _ _ (by omega)]
  exact List.getElem_take _

/-- Witness for C2: a three-byte file copied through the fallback path
after a rejected clone, with a transient empty read. -/
theorem C2_fallback_copy_equiv_witness :
    entryWrite false 5 (fun j => if j = 0 then 0 else 2) (fun _ => 0) 3
        [9, 9] [71, 72, 73] 3 =
      entryWrite true 5 (fun j => if j = 0 then 0 else 2) (fun _ => 0) 3
        [9, 9] [71, 72, 73] 3 ∧
    (entryWrite false 5 (fun j => if j = 0 then 0 else 2) (fun _ => 0) 3
        [9, 9] [71, 72, 73] 3).isSome = true ∧
    ∀ i, i < 3 →
      ((entryWrite false 5 (fun j => if j = 0 then 0 else 2) (fun _ => 0) 3
          [9, 9] [71, 72, 73] 3).getD (fun _ => 0)) (3 + 2 + i) =
        [71, 72, 73].getD i 0 := by
  have h := C2_fallback_copy_equiv 5 (fun j => if j = 0 then 0 else 2)
    (fun _ => 0) 3 [9, 9] [71, 72, 73] 3 (by decide) (by decide)
  simpa using h

lemma mul_two_pow_lor_eq_add (k : ℕ) :
    ∀ a b : ℕ, b < 2 ^ k → (a * 2 ^ k) ||| b = a * 2 ^ k + b := by
  induction k with
  | zero =>
    intro a b hb
    have hb0 : b = 0 := by omega
    subst hb0
    simp
  | succ k ih =>
    intro a b hb
    have h1 : a * 2 ^ (k + 1) = Nat.bit false (a * 2 ^ k) := by
      simp only [Nat.bit_val, Bool.toNat_false, Nat.add_zero, Nat.pow_succ]
      ring
    have h2 : b = Nat.bit (decide (b % 2 = 1)) (b / 2) := by
      conv_lhs => rw [← Nat.bit_decide_mod_two_eq_one_shiftRight_one b]
      rw [Nat.shiftRight_one]
    rw [h1, h2, Nat.lor_bit, ih _ _ (by omega)]
    rcases Nat.mod_two_eq_zero_or_one b with h | h <;>
      simp [Nat.bit_val, h] <;> omega

/-- C8: for a modification timestamp whose local-time year is in
1980..2107 (with the usual ranges for the other `struct tm` fields),
`get_dos_date_time` returns the pair with
date = (year - 1980) * 2^9 + month * 2^5 + day and
time = hour * 2^11 + minute * 2^5 + second / 2, i.e. 2-second
granularity; the computation uses the broken-down local time delivered
by `time.localtime` (the host's local zone), not UTC. -/
theorem C8_dos_datetime (tm : Tm)
    (hy1 : 1980 ≤ tm.tm_year) (hy2 : tm.tm_year ≤ 2107)
    (hm1 : 1 ≤ tm.tm_mon) (hm2 : tm.tm_mon ≤ 12)
    (hd1 : 1 ≤ tm.tm_mday) (hd2 : tm.tm_mday ≤ 31)
    (hh : tm.tm_hour ≤ 23) (hmin : tm.tm_min ≤ 59) (hs : tm.tm_sec ≤ 61) :
    get_dos_date_time tm =
      ((tm.tm_year - 1980) * 512 + tm.tm_mon * 32 + tm.tm_mday,
       tm.tm_hour * 2048 + tm.tm_min * 32 + tm.tm_sec / 2) := by
  unfold get_dos_date_time
  simp only [Nat.shiftLeft_eq, Nat.shiftRight_eq_div_pow, Prod.mk.injEq]
  norm_num
  constructor
  · have a1 : (tm.tm_year - 1980) * 512 ||| tm.tm_mon * 32 =
        (tm.tm_year - 1980) * 512 + tm.tm_mon * 32 := by
      have h := mul_two_pow_lor_eq_add 9 (tm.tm_year - 1980) (tm.tm_mon * 32)
        (by norm_num; omega)
      norm_num at h
      exact h
    have a2 : ((tm.tm_year - 1980) * 512 + tm.tm_mon * 32) ||| tm.tm_mday =
        (tm.tm_year - 1980) * 512 + tm.tm_mon * 32 + tm.tm_mday := by
      have h := mul_two_pow_lor_eq_add 5
        ((tm.tm_year - 1980) * 16 + tm.tm_mon) tm.tm_mday (by norm_num; omega)
      norm_num at h
      rw [show ((tm.tm_year - 1980) * 16 + tm.tm_mon) * 32 =
        (tm.tm_year - 1980) * 512 + tm.tm_mon * 32 by ring] at h
      exact h
    rw [a1, a2]
  · have b1 : tm.tm_hour * 2048 ||| tm.tm_min * 32 =
        tm.tm_hour * 2048 + tm.tm_min * 32 := by
      have h := mul_two_pow_lor_eq_add 11 tm.tm_hour (tm.tm_min * 32)
        (by norm_num; omega)
      norm_num at h
      exact h
    have b2 : (tm.tm_hour * 2048 + tm.tm_min * 32) ||| tm.tm_sec / 2 =
        tm.tm_hour * 2048 + tm.tm_min * 32 + tm.tm_sec / 2 := by
      have h := mul_two_pow_lor_eq_add 5
        (tm.tm_hour * 64 + tm.tm_min) (tm.tm_sec / 2) (by norm_num; omega)
      norm_num at h
      rw [show (tm.tm_hour * 64 + tm.tm_min) * 32 =
        tm.tm_hour * 2048 + tm.tm_min * 32 by ring] at h
      exact h
    rw [b1, b2]

/-- Witness for C8 at the local time 2020-05-06 07:08:10. -/
theorem C8_dos_datetime_witness :
    get_dos_date_time ⟨2020, 5, 6, 7, 8, 10⟩ =
      ((2020 - 1980) * 512 + 5 * 32 + 6, 7 * 2048 + 8 * 32 + 10 / 2) :=
  C8_dos_datetime ⟨2020, 5, 6, 7, 8, 10⟩ (by decide) (by decide) (by decide)
    (by decide) (by decide) (by decide) (by decide) (by decide) (by decide)

lemma encodeSE_cons (c : ℕ) (cs : List ℕ) (b r : List ℕ)
    (hc : encodeSEChar c = some b) (hr : encodeSE cs = some r) :
    encodeSE (c :: cs) = some (b ++ r) := by
  simp [encodeSE, hc, hr]

lemma encodeSEChar_ascii (c : ℕ) (h : c < 128) : encodeSEChar c = some [c] := by
  unfold encodeSEChar
  rw [if_neg (by omega), if_neg (by omega), if_pos (by omega)]
  unfold utf8EncodeChar
  rw [if_pos h]

lemma encodeSEChar_escape (c : ℕ) (h1 : 0xDC80 ≤ c) (h2 : c ≤ 0xDCFF) :
    encodeSEChar c = some [c - 0xDC00] := by
  unfold encodeSEChar
  rw [if_pos ⟨h1, h2⟩]

lemma encodeSEChar_two (c : ℕ) (h1 : 128 ≤ c) (h2 : c < 2048) :
    encodeSEChar c = some [0xC0 + c / 64, 0x80 + c % 64] := by
  unfold encodeSEChar
  rw [if_neg (by omega), if_neg (by omega), if_pos (by omega)]
  unfold utf8EncodeChar
  rw [if_neg (by omega), if_pos h2]

lemma encodeSEChar_three (c : ℕ) (h1 : 2048 ≤ c) (h2 : c < 65536)
    (h3 : ¬(0xD800 ≤ c ∧ c ≤ 0xDFFF)) :
    encodeSEChar c = some [0xE0 + c / 4096, 0x80 + c / 64 % 64, 0x80 + c % 64] := by
  unfold encodeSEChar
  rw [if_neg (by omega), if_neg h3, if_pos (by omega)]
  unfold utf8EncodeChar
  rw [if_neg (by omega), if_neg (by omega), if_pos h2]

lemma encodeSEChar_four (c : ℕ) (h1 : 65536 ≤ c) (h2 : c < 1114112) :
    encodeSEChar c = some
      [0xF0 + c / 262144, 0x80 + c / 4096 % 64, 0x80 + c / 64 % 64,
       0x80 + c % 64] := by
  unfold encodeSEChar
  rw [if_neg (by omega), if_neg (by omega), if_pos h2]
  unfold utf8EncodeChar
  rw [if_neg (by omega), if_neg (by omega), if_neg (by omega)]

lemma encodeSEChar_escape_byte (b : ℕ) (h1 : 128 ≤ b) (h2 : b < 256) :
    encodeSEChar (0xDC00 + b) = some [b] := by
  rw [encodeSEChar_escape (0xDC00 + b) (by omega) (by omega)]
  have h : 0xDC00 + b - 0xDC00 = b := by omega
  rw [h]

set_option maxHeartbeats 1000000 in
lemma encodeSE_decodeSEAux :
    ∀ (fuel : ℕ) (bs : List ℕ), bs.length ≤ fuel →
      (∀ b ∈ bs, b < 256) → encodeSE (decodeSEAux fuel bs) = some bs := by
  intro fuel
  induction fuel with
  | zero =>
    intro bs hlen _
    have hnil : bs = [] := List.eq_nil_of_length_eq_zero (by omega)
    subst hnil
    rfl
  | succ fuel ih =>
    intro bs hlen hbytes
    rcases bs with _ | ⟨b0, tl⟩
    · rfl
    · simp only [List.length_cons] at hlen
      have hb0 : b0 < 256 := hbytes b0 (by simp)
      have htl : ∀ b ∈ tl, b < 256 := fun b hb => hbytes b (by simp [hb])
      by_cases h80 : b0 < 128
      · have hstep : decodeSEAux (fuel + 1) (b0 :: tl) =
            b0 :: decodeSEAux fuel tl := by
          simp only [decodeSEAux]
          rw [if_pos h80]
        rw [hstep, encodeSE_cons b0 (decodeSEAux fuel tl) [b0] tl
          (encodeSEChar_ascii b0 h80) (ih tl (by omega) htl)]
        rfl
      · by_cases h2b : 0xC2 ≤ b0 ∧ b0 ≤ 0xDF
        · rcases tl with _ | ⟨b1, tl1⟩
          · have hstep : decodeSEAux (fuel + 1) [b0] = [0xDC00 + b0] := by
              simp only [decodeSEAux]
              rw [if_neg h80, if_pos h2b]
            rw [hstep, encodeSE_cons (0xDC00 + b0) [] [b0] []
              (encodeSEChar_escape_byte b0 (by omega) hb0) rfl]
            rfl
          · simp only [List.length_cons] at hlen
            have hb1 : b1 < 256 := hbytes b1 (by simp)
            have htl1 : ∀ b ∈ tl1, b < 256 := fun b hb => hbytes b (by simp [hb])
            by_cases hcont : 0x80 ≤ b1 ∧ b1 ≤ 0xBF
            · have hstep : decodeSEAux (fuel + 1) (b0 :: b1 :: tl1) =
                  ((b0 - 0xC0) * 64 + (b1 - 0x80)) :: decodeSEAux fuel tl1 := by
                simp only [decodeSEAux]
                rw [if_neg h80, if_pos h2b, if_pos hcont]
              rw [hstep, encodeSE_cons ((b0 - 0xC0) * 64 + (b1 - 0x80))
                (decodeSEAux fuel tl1) _ tl1
                (encodeSEChar_two ((b0 - 0xC0) * 64 + (b1 - 0x80))
                  (by omega) (by omega))
                (ih tl1 (by omega) htl1)]
              simp only [List.cons_append, List.nil_append, Option.some.injEq,
                List.cons.injEq]
              refine ⟨by omega, by omega, by trivial⟩
            · have hstep : decodeSEAux (fuel + 1) (b0 :: b1 :: tl1) =
                  (0xDC00 + b0) :: decodeSEAux fuel (b1 :: tl1) := by
                simp only [decodeSEAux]
                rw [if_neg h80, if_pos h2b, if_neg hcont]
              rw [hstep, encodeSE_cons (0xDC00 + b0)
                (decodeSEAux fuel (b1 :: tl1)) [b0] (b1 :: tl1)
                (encodeSEChar_escape_byte b0 (by omega) hb0)
                (ih (b1 :: tl1) (by simp only [List.length_cons]; omega)
                  (fun b hb => hbytes b (by simp at hb ⊢; tauto)))]
              rfl
        · by_cases h3b : 0xE0 ≤ b0 ∧ b0 ≤ 0xEF
          · rcases tl with _ | ⟨b1, _ | ⟨b2, tl2⟩⟩
            · have hstep : decodeSEAux (fuel + 1) [b0] =
                  (0xDC00 + b0) :: decodeSEAux fuel [] := by
                simp only [decodeSEAux]
                rw [if_neg h80, if_neg h2b, if_pos h3b]
              rw [hstep, encodeSE_cons (0xDC00 + b0) (decodeSEAux fuel [])
                [b0] [] (encodeSEChar_escape_byte b0 (by omega) hb0)
                (ih [] (by omega) (by simp))]
              rfl
            · simp only [List.length_cons] at hlen
              have hb1 : b1 < 256 := hbytes b1 (by simp)
              have hstep : decodeSEAux (fuel + 1) [b0, b1] =
                  (0xDC00 + b0) :: decodeSEAux fuel [b1] := by
                simp only [decodeSEAux]
                rw [if_neg h80, if_neg h2b, if_pos h3b]
              rw [hstep, encodeSE_cons (0xDC00 + b0) (decodeSEAux fuel [b1])
                [b0] [b1] (encodeSEChar_escape_byte b0 (by omega) hb0)
                (ih [b1] (by simp only [List.length_cons, List.length_nil]; omega)
                  (fun b hb => hbytes b (by simp at hb ⊢; tauto)))]
              rfl
            · simp only [List.length_cons] at hlen
              have hb1 : b1 < 256 := hbytes b1 (by simp)
              have hb2v : b2 < 256 := hbytes b2 (by simp)
              have htl2 : ∀ b ∈ tl2, b < 256 :=
                fun b hb => hbytes b (by simp [hb])
              by_cases hcont : cont3 b0 b1 ∧ 0x80 ≤ b2 ∧ b2 ≤ 0xBF
              · have hstep : decodeSEAux (fuel + 1) (b0 :: b1 :: b2 :: tl2) =
                    ((b0 - 0xE0) * 4096 + (b1 - 0x80) * 64 + (b2 - 0x80)) ::
                      decodeSEAux fuel tl2 := by
                  simp only [decodeSEAux]
                  rw [if_neg h80, if_neg h2b, if_pos h3b, if_pos hcont]
                obtain ⟨hc3, hc2⟩ := hcont
                simp only [cont3] at hc3
                rw [hstep, encodeSE_cons
                  ((b0 - 0xE0) * 4096 + (b1 - 0x80) * 64 + (b2 - 0x80))
                  (decodeSEAux fuel tl2) _ tl2
                  (encodeSEChar_three
                    ((b0 - 0xE0) * 4096 + (b1 - 0x80) * 64 + (b2 - 0x80))
                    (by omega) (by omega) (by omega))
                  (ih tl2 (by omega) htl2)]
                simp only [List.cons_append, List.nil_append, Option.some.injEq,
                  List.cons.injEq]
                refine ⟨by omega, by omega, by omega, by trivial⟩
              · have hstep : decodeSEAux (fuel + 1) (b0 :: b1 :: b2 :: tl2) =
                    (0xDC00 + b0) :: decodeSEAux fuel (b1 :: b2 :: tl2) := by
                  simp only [decodeSEAux]
                  rw [if_neg h80, if_neg h2b, if_pos h3b, if_neg hcont]
                rw [hstep, encodeSE_cons (0xDC00 + b0)
                  (decodeSEAux fuel (b1 :: b2 :: tl2)) [b0] (b1 :: b2 :: tl2)
                  (encodeSEChar_escape_byte b0 (by omega) hb0)
                  (ih (b1 :: b2 :: tl2)
                    (by simp only [List.length_cons]; omega)
                    (fun b hb => hbytes b (by simp at hb ⊢; tauto)))]
                rfl
          · by_cases h4b : 0xF0 ≤ b0 ∧ b0 ≤ 0xF4
            · rcases tl with _ | ⟨b1, _ | ⟨b2, _ | ⟨b3, tl3⟩⟩⟩
              · have hstep : decodeSEAux (fuel + 1) [b0] =
                    (0xDC00 + b0) :: decodeSEAux fuel [] := by
                  simp only [decodeSEAux]
                  rw [if_neg h80, if_neg h2b, if_neg h3b, if_pos h4b]
                rw [hstep, encodeSE_cons (0xDC00 + b0) (decodeSEAux fuel [])
                  [b0] [] (encodeSEChar_escape_byte b0 (by omega) hb0)
                  (ih [] (by omega) (by simp))]
                rfl
              · simp only [List.length_cons] at hlen
                have hstep : decodeSEAux (fuel + 1) [b0, b1] =
                    (0xDC00 + b0) :: decodeSEAux fuel [b1] := by
                  simp only [decodeSEAux]
                  rw [if_neg h80, if_neg h2b, if_neg h3b, if_pos h4b]
                rw [hstep, encodeSE_cons (0xDC00 + b0) (decodeSEAux fuel [b1])
                  [b0] [b1] (encodeSEChar_escape_byte b0 (by omega) hb0)
                  (ih [b1]
                    (by simp only [List.length_cons, List.length_nil]; omega)
                    (fun b hb => hbytes b (by simp at hb ⊢; tauto)))]
                rfl
              · simp only [List.length_cons] at hlen
                have hstep : decodeSEAux (fuel + 1) [b0, b1, b2] =
                    (0xDC00 + b0) :: decodeSEAux fuel [b1, b2] := by
                  simp only [decodeSEAux]
                  rw [if_neg h80, if_neg h2b, if_neg h3b, if_pos h4b]
                rw [hstep, encodeSE_cons (0xDC00 + b0)
                  (decodeSEAux fuel [b1, b2]) [b0] [b1, b2]
                  (encodeSEChar_escape_byte b0 (by omega) hb0)
                  (ih [b1, b2]
                    (by simp only [List.length_cons, List.length_nil]; omega)
                    (fun b hb => hbytes b (by simp at hb ⊢; tauto)))]
                rfl
              · simp only [List.length_cons] at hlen
                have hb1 : b1 < 256 := hbytes b1 (by simp)
                have hb2v : b2 < 256 := hbytes b2 (by simp)
                have hb3v : b3 < 256 := hbytes b3 (by simp)
                have htl3 : ∀ b ∈ tl3, b < 256 :=
                  fun b hb => hbytes b (by simp [hb])
                by_cases hcont : cont4 b0 b1 ∧ 0x80 ≤ b2 ∧ b2 ≤ 0xBF ∧
                    0x80 ≤ b3 ∧ b3 ≤ 0xBF
                · have hstep :
                      decodeSEAux (fuel + 1) (b0 :: b1 :: b2 :: b3 :: tl3) =
                      ((b0 - 0xF0) * 262144 + (b1 - 0x80) * 4096 +
                        (b2 - 0x80) * 64 + (b3 - 0x80)) ::
                        decodeSEAux fuel tl3 := by
                    simp only [decodeSEAux]
                    rw [if_neg h80, if_neg h2b, if_neg h3b, if_pos h4b,
                      if_pos hcont]
                  obtain ⟨hc4, hc2, hc3v⟩ := hcont
                  simp only [cont4] at hc4
                  rw [hstep, encodeSE_cons
                    ((b0 - 0xF0) * 262144 + (b1 - 0x80) * 4096 +
                      (b2 - 0x80) * 64 + (b3 - 0x80))
                    (decodeSEAux fuel tl3) _ tl3
                    (encodeSEChar_four
                      ((b0 - 0xF0) * 262144 + (b1 - 0x80) * 4096 +
                        (b2 - 0x80) * 64 + (b3 - 0x80))
                      (by omega) (by omega))
                    (ih tl3 (by omega) htl3)]
                  simp only [List.cons_append, List.nil_append,
                    Option.some.injEq, List.cons.injEq]
                  refine ⟨by omega, by omega, by omega, by omega, by trivial⟩
                · have hstep :
                      decodeSEAux (fuel + 1) (b0 :: b1 :: b2 :: b3 :: tl3) =
                      (0xDC00 + b0) ::
                        decodeSEAux fuel (b1 :: b2 :: b3 :: tl3) := by
                    simp only [decodeSEAux]
                    rw [if_neg h80, if_neg h2b, if_neg h3b, if_pos h4b,
                      if_neg hcont]
                  rw [hstep, encodeSE_cons (0xDC00 + b0)
                    (decodeSEAux fuel (b1 :: b2 :: b3 :: tl3)) [b0]
                    (b1 :: b2 :: b3 :: tl3)
                    (encodeSEChar_escape_byte b0 (by omega) hb0)
                    (ih (b1 :: b2 :: b3 :: tl3)
                      (by simp only [List.length_cons]; omega)
                      (fun b hb => hbytes b (by simp at hb ⊢; tauto)))]
                  rfl
            · have hstep : decodeSEAux (fuel + 1) (b0 :: tl) =
                  (0xDC00 + b0) :: decodeSEAux fuel tl := by
                simp only [decodeSEAux]
                rw [if_neg h80, if_neg h2b, if_neg h3b, if_neg h4b]
              rw [hstep, encodeSE_cons (0xDC00 + b0) (decodeSEAux fuel tl)
                [b0] tl (encodeSEChar_escape_byte b0 (by omega) hb0)
                (ih tl (by omega) htl)]
              rfl

/-- The full platform round trip on path byte strings: decoding any
byte sequence with UTF-8 surrogateescape and re-encoding it restores
the bytes exactly. -/
lemma encodeSE_decodeSE (bs : List ℕ) (h : ∀ b ∈ bs, b < 256) :
    encodeSE (decodeSE bs) = some bs :=
  encodeSE_decodeSEAux bs.length bs (le_refl _) h

lemma u16le_length (n : ℕ) : (u16le n).length = 2 := rfl

lemma u32le_length (n : ℕ) : (u32le n).length = 4 := rfl

lemma u64le_length (n : ℕ) : (u64le n).length = 8 := rfl

lemma lePack_u64le (n : ℕ) (h : n < 18446744073709551616) :
    lePack (u64le n) = n := by
  simp only [u64le, u32le, lePack, List.cons_append, List.nil_append,
    List.foldr_cons, List.foldr_nil]
  omega

lemma drop_prefix_append (p rest : List ℕ) (n : ℕ) (h : p.length = n) :
    (p ++ rest).drop n = rest := by
  subst h
  exact List.drop_left p rest

lemma drop_append_len :
    ∀ (p rest : List ℕ) (m : ℕ), (p ++ rest).drop (p.length + m) = rest.drop m := by
  intro p
  induction p with
  | nil => intro rest m; simp
  | cons a p ihp =>
    intro rest m
    simp only [List.cons_append, List.length_cons]
    rw [show p.length + 1 + m = p.length + m + 1 by omega, List.drop_succ_cons]
    exact ihp rest m

set_option maxHeartbeats 1000000 in
/-- Shape of the local file header: an 18-byte prefix (magic, versions,
flags, compression, DOS time and date, CRC), the two 32-bit size
sentinels, the name and extra lengths, the encoded name, then the
ZIP64 extra field with tag 1, payload 16 and the true size twice. -/
lemma make_file_header_shape (name : List ℕ) (st : StatResult) (crc : ℕ)
    (bname : List ℕ) (henc : encodeSE name = some bname) :
    ∃ p18 q4 : List ℕ, p18.length = 18 ∧ q4.length = 4 ∧
      make_file_header name st crc =
        some (p18 ++ (u32le 0xffffffff ++ u32le 0xffffffff ++ (q4 ++ (bname ++
          (u16le 1 ++ u16le 16 ++ u64le st.st_size ++ u64le st.st_size))))) := by
  refine ⟨u32le 0x04034b50 ++ u16le 45 ++ u16le (1 <<< 11) ++ u16le 0 ++
      u16le (get_dos_date_time st.st_mtime_tm).2 ++
      u16le (get_dos_date_time st.st_mtime_tm).1 ++ u32le crc,
    u16le bname.length ++
      u16le (u16le 1 ++ u16le 16 ++ u64le st.st_size ++ u64le st.st_size).length,
    ?_, ?_, ?_⟩
  · simp [List.length_append, u16le_length, u32le_length]
  · simp [List.length_append, u16le_length]
  · simp only [make_file_header, henc]
    simp only [List.append_assoc]

set_option maxHeartbeats 1000000 in
/-- Shape of the central-directory header: a 20-byte prefix up to and
including the CRC, the two 32-bit size sentinels, 14 bytes of length
and attribute fields, the 32-bit offset sentinel, the encoded name,
then the ZIP64 extra field with tag 1, payload 24, the true sizes and
the local header offset. -/
lemma make_central_header_shape (name : List ℕ) (st : StatResult)
    (crc offset : ℕ) (bname : List ℕ) (henc : encodeSE name = some bname) :
    ∃ p20 q14 : List ℕ, p20.length = 20 ∧ q14.length = 14 ∧
      make_central_header name st crc offset =
        some (p20 ++ (u32le 0xffffffff ++ u32le 0xffffffff ++ (q14 ++
          (u32le 0xffffffff ++ (bname ++
          (u16le 1 ++ u16le 24 ++ u64le st.st_size ++ u64le st.st_size ++
            u64le offset)))))) := by
  refine ⟨u32le 0x02014b50 ++ u16le 45 ++ u16le 45 ++ u16le (1 <<< 11) ++
      u16le 0 ++ u16le (get_dos_date_time st.st_mtime_tm).2 ++
      u16le (get_dos_date_time st.st_mtime_tm).1 ++ u32le crc,
    u16le bname.length ++
      u16le (u16le 1 ++ u16le 24 ++ u64le st.st_size ++ u64le st.st_size ++
        u64le offset).length ++ u16le 0 ++ u16le 0 ++ u16le 0 ++ u32le 0,
    ?_, ?_, ?_⟩
  · simp [List.length_append, u16le_length, u32le_length]
  · simp [List.length_append, u16le_length, u32le_length]
  · simp only [make_central_header, henc]
    simp only [List.append_assoc]

/-- C7: for every path accepted as an entry, the filename bytes written
in the local header equal the filename bytes written in the
central-directory header, both equal to the original filesystem byte
sequence, and decoding those bytes with the platform encoding (UTF-8
with surrogate escapes) recovers the path string — so arbitrary
filename byte sequences round-trip byte-for-byte through the archive
headers.  `bs` is the on-disk name (any byte sequence) and
`decodeSE bs` the path string `execute` receives. -/
theorem C7_name_roundtrip (bs : List ℕ) (st : StatResult) (crc offset : ℕ)
    (lh ch : List ℕ) (h : ∀ b ∈ bs, b < 256)
    (hlh : make_file_header (decodeSE bs) st crc = some lh)
    (hch : make_central_header (decodeSE bs) st crc offset = some ch) :
    encodeSE (decodeSE bs) = some bs ∧
    (lh.drop 30).take bs.length = bs ∧
    (ch.drop 46).take bs.length = bs := by
  have henc := encodeSE_decodeSE bs h
  obtain ⟨p18, q4, hp18, hq4, hshape⟩ :=
    make_file_header_shape (decodeSE bs) st crc bs henc
  obtain ⟨p20, q14, hp20, hq14, hcshape⟩ :=
    make_central_header_shape (decodeSE bs) st crc offset bs henc
  rw [hlh] at hshape
  rw [hch] at hcshape
  simp only [Option.some.injEq] at hshape hcshape
  subst hshape
  subst hcshape
  refine ⟨henc, ?_, ?_⟩
  · rw [show (30 : ℕ) = p18.length + (8 + q4.length) by omega,
      drop_append_len,
      show (8 + q4.length : ℕ) =
        (u32le 0xffffffff ++ u32le 0xffffffff).length + (q4.length + 0) by
          simp [List.length_append, u32le_length],
      drop_append_len,
      show q4.length + 0 = q4.length + 0 from rfl, drop_append_len,
      List.drop_zero, List.take_left]
  · rw [show (46 : ℕ) = p20.length + (8 + (q14.length + 4)) by omega,
      drop_append_len,
      show (8 + (q14.length + 4) : ℕ) =
        (u32le 0xffffffff ++ u32le 0xffffffff).length + (q14.length + 4) by
          simp [List.length_append, u32le_length],
      drop_append_len,
      show (q14.length + 4 : ℕ) = q14.length + 4 from rfl, drop_append_len,
      show (4 : ℕ) = (u32le 0xffffffff).length + 0 by simp [u32le_length],
      drop_append_len,
      List.drop_zero, List.take_left]

/-- Witness for C7: the byte sequence a, 0xC3 0xA9, 0xFF (ASCII, a
two-byte UTF-8 sequence and a non-UTF-8 byte). -/
theorem C7_name_roundtrip_witness :
    encodeSE (decodeSE [97, 195, 169, 255]) = some [97, 195, 169, 255] ∧
    (((make_file_header (decodeSE [97, 195, 169, 255])
        ⟨7, ⟨2021, 3, 4, 5, 6, 7⟩, true⟩ 99).getD []).drop 30).take 4 =
      [97, 195, 169, 255] ∧
    (((make_central_header (decodeSE [97, 195, 169, 255])
        ⟨7, ⟨2021, 3, 4, 5, 6, 7⟩, true⟩ 99 1000).getD []).drop 46).take 4 =
      [97, 195, 169, 255] := by
  have h := C7_name_roundtrip [97, 195, 169, 255]
    ⟨7, ⟨2021, 3, 4, 5, 6, 7⟩, true⟩ 99 1000
    ((make_file_header (decodeSE [97, 195, 169, 255])
        ⟨7, ⟨2021, 3, 4, 5, 6, 7⟩, true⟩ 99).getD [])
    ((make_central_header (decodeSE [97, 195, 169, 255])
        ⟨7, ⟨2021, 3, 4, 5, 6, 7⟩, true⟩ 99 1000).getD [])
    (by decide) (by decide) (by decide)
  exact ⟨h.1, h.2.1, h.2.2⟩

/-- C3: for every entry the 32-bit compressed- and uncompressed-size
fields of both headers are written as the sentinel 0xFFFFFFFF (bytes
18..25 of the local header, bytes 20..27 of the central header), the
central header's 32-bit offset field (bytes 42..45) is the sentinel
too, and the true 64-bit values are carried unconditionally in a ZIP64
extra field: tag 1, payload length 16 with the size twice in the local
header, and tag 1, payload length 24 with uncompressed size,
compressed size and local-header offset in the central header — the
true values being recoverable from the packed little-endian bytes. -/
theorem C3_zip64_sentinels (name : List ℕ) (st : StatResult)
    (crc offset : ℕ) (bname lh ch : List ℕ)
    (henc : encodeSE name = some bname)
    (hlh : make_file_header name st crc = some lh)
    (hch : make_central_header name st crc offset = some ch)
    (hsize : st.st_size < 18446744073709551616)
    (hoff : offset < 18446744073709551616) :
    (lh.drop 18).take 8 = List.replicate 8 255 ∧
    lh.drop (30 + bname.length) =
      u16le 1 ++ u16le 16 ++ u64le st.st_size ++ u64le st.st_size ∧
    lePack (((lh.drop (30 + bname.length)).drop 4).take 8) = st.st_size ∧
    (ch.drop 20).take 8 = List.replicate 8 255 ∧
    (ch.drop 42).take 4 = List.replicate 4 255 ∧
    ch.drop (46 + bname.length) =
      u16le 1 ++ u16le 24 ++ u64le st.st_size ++ u64le st.st_size ++
        u64le offset ∧
    lePack (((ch.drop (46 + bname.length)).drop 20).take 8) = offset := by
  obtain ⟨p18, q4, hp18, hq4, hshape⟩ :=
    make_file_header_shape name st crc bname henc
  obtain ⟨p20, q14, hp20, hq14, hcshape⟩ :=
    make_central_header_shape name st crc offset bname henc
  rw [hlh] at hshape
  rw [hch] at hcshape
  simp only [Option.some.injEq] at hshape hcshape
  subst hshape
  subst hcshape
  have h2 : (p18 ++ (u32le 0xffffffff ++ u32le 0xffffffff ++ (q4 ++ (bname ++
      (u16le 1 ++ u16le 16 ++ u64le st.st_size ++
        u64le st.st_size))))).drop (30 + bname.length) =
      u16le 1 ++ u16le 16 ++ u64le st.st_size ++ u64le st.st_size := by
    rw [show 30 + bname.length =
        p18.length + (8 + (q4.length + (bname.length + 0))) by omega,
      drop_append_len,
      show (8 + (q4.length + (bname.length + 0)) : ℕ) =
        (u32le 0xffffffff ++ u32le 0xffffffff).length +
          (q4.length + (bname.length + 0)) by
        simp [List.length_append, u32le_length],
      drop_append_len, drop_append_len, drop_append_len, List.drop_zero]
  have h6 : (p20 ++ (u32le 0xffffffff ++ u32le 0xffffffff ++ (q14 ++
      (u32le 0xffffffff ++ (bname ++ (u16le 1 ++ u16le 24 ++
        u64le st.st_size ++ u64le st.st_size ++
        u64le offset)))))).drop (46 + bname.length) =
      u16le 1 ++ u16le 24 ++ u64le st.st_size ++ u64le st.st_size ++
        u64le offset := by
    rw [show 46 + bname.length =
        p20.length + (8 + (q14.length + (4 + (bname.length + 0)))) by omega,
      drop_append_len,
      show (8 + (q14.length + (4 + (bname.length + 0))) : ℕ) =
        (u32le 0xffffffff ++ u32le 0xffffffff).length +
          (q14.length + (4 + (bname.length + 0))) by
        simp [List.length_append, u32le_length],
      drop_append_len, drop_append_len,
      show (4 + (bname.length + 0) : ℕ) =
        (u32le 0xffffffff).length + (bname.length + 0) by simp [u32le_length],
      drop_append_len, drop_append_len, List.drop_zero]
  refine ⟨?_, h2, ?_, ?_, ?_, h6, ?_⟩
  · rw [show (18 : ℕ) = p18.length + 0 by omega, drop_append_len,
      List.drop_zero]
    rfl
  · rw [h2]
    rw [show (((u16le 1 ++ u16le 16 ++ u64le st.st_size ++
        u64le st.st_size).drop 4).take 8) = u64le st.st_size from rfl]
    exact lePack_u64le _ hsize
  · rw [show (20 : ℕ) = p20.length + 0 by omega, drop_append_len,
      List.drop_zero]
    rfl
  · rw [show (42 : ℕ) = p20.length + (8 + (q14.length + 0)) by omega,
      drop_append_len,
      show (8 + (q14.length + 0) : ℕ) =
        (u32le 0xffffffff ++ u32le 0xffffffff).length + (q14.length + 0) by
        simp [List.length_append, u32le_length],
      drop_append_len, drop_append_len, List.drop_zero]
    rfl
  · rw [h6]
    rw [show (((u16le 1 ++ u16le 24 ++ u64le st.st_size ++ u64le st.st_size ++
        u64le offset).drop 20).take 8) = u64le offset from rfl]
    exact lePack_u64le _ hoff

/-- Witness for C3: the one-byte name a, size 7, offset 1000. -/
theorem C3_zip64_sentinels_witness :
    ((((make_file_header [97] ⟨7, ⟨2021, 3, 4, 5, 6, 7⟩, true⟩ 99).getD
        []).drop 18).take 8 = List.replicate 8 255) ∧
    ((make_file_header [97] ⟨7, ⟨2021, 3, 4, 5, 6, 7⟩, true⟩ 99).getD
        []).drop (30 + 1) =
      u16le 1 ++ u16le 16 ++ u64le 7 ++ u64le 7 ∧
    lePack (((((make_file_header [97] ⟨7, ⟨2021, 3, 4, 5, 6, 7⟩, true⟩
        99).getD []).drop (30 + 1)).drop 4).take 8) = 7 ∧
    ((((make_central_header [97] ⟨7, ⟨2021, 3, 4, 5, 6, 7⟩, true⟩ 99
        1000).getD []).drop 20).take 8 = List.replicate 8 255) ∧
    ((((make_central_header [97] ⟨7, ⟨2021, 3, 4, 5, 6, 7⟩, true⟩ 99
        1000).getD []).drop 42).take 4 = List.replicate 4 255) ∧
    ((make_central_header [97] ⟨7, ⟨2021, 3, 4, 5, 6, 7⟩, true⟩ 99
        1000).getD []).drop (46 + 1) =
      u16le 1 ++ u16le 24 ++ u64le 7 ++ u64le 7 ++ u64le 1000 ∧
    lePack (((((make_central_header [97] ⟨7, ⟨2021, 3, 4, 5, 6, 7⟩, true⟩ 99
        1000).getD []).drop (46 + 1)).drop 20).take 8) = 1000 := by
  have h := C3_zip64_sentinels [97] ⟨7, ⟨2021, 3, 4, 5, 6, 7⟩, true⟩ 99 1000
    [97]
    ((make_file_header [97] ⟨7, ⟨2021, 3, 4, 5, 6, 7⟩, true⟩ 99).getD [])
    ((make_central_header [97] ⟨7, ⟨2021, 3, 4, 5, 6, 7⟩, true⟩ 99
      1000).getD [])
    (by decide) (by decide) (by decide) (by decide) (by decide)
  simpa using h

/-- The placement formula the spec describes (exact integer ceiling
division) really is the smallest offset at or after the end of file
whose data start is a multiple of the alignment: it is aligned, not
before the end of file, and minimal among such offsets.  The code's
`pyPlacement` diverges from it (see the C1 theorem below). -/
lemma specPlacement_correct (e h A : ℕ) (hA : 0 < A) :
    (specPlacement e h A + h) % (A : ℤ) = 0 ∧
    (e : ℤ) ≤ specPlacement e h A ∧
    ∀ q : ℤ, (e : ℤ) ≤ q → (q + h) % (A : ℤ) = 0 → specPlacement e h A ≤ q := by
  have hdm := Nat.div_add_mod (e + h + A - 1) A
  have hmlt : (e + h + A - 1) % A < A := Nat.mod_lt _ hA
  set c : ℕ := (e + h + A - 1) / A with hc
  have hcu : A * c ≤ e + h + A - 1 := by omega
  have hcl : e + h ≤ A * c := by omega
  have hps : specPlacement e h A + h = (A : ℤ) * c := by
    simp only [specPlacement]
    rw [← hc]
    ring
  refine ⟨?_, ?_, ?_⟩
  · rw [hps]
    simp [Int.mul_emod_right]
  · have hcast : (e : ℤ) + h ≤ (A : ℤ) * c := by exact_mod_cast hcl
    omega
  · intro q hq hqmod
    obtain ⟨m, hm⟩ : ((A : ℤ)) ∣ (q + h) := Int.dvd_of_emod_eq_zero hqmod
    by_contra hlt
    push_neg at hlt
    have h1 : q + h < specPlacement e h A + h := by omega
    rw [hps, hm] at h1
    have hAz : (0 : ℤ) < A := by exact_mod_cast hA
    have hmc : m < c := lt_of_mul_lt_mul_left h1 (by omega)
    have h2 : (A : ℤ) * m ≤ A * (c - 1) :=
      mul_le_mul_of_nonneg_left (by omega) (by omega)
    have h3 : (e : ℤ) + h ≤ A * m := by
      rw [← hm]
      omega
    have h4 : (A : ℤ) * (c - 1) = A * c - A := by ring
    have h5 : (e : ℤ) + h + A ≤ A * c := by omega
    have h5n : e + h + A ≤ A * c := by exact_mod_cast h5
    omega

/-- C1 (refuting): the placement computed by line 94 of `execute` uses
Python float true division (`int((eof + hlen + alignment - 1) /
alignment) * alignment - hlen`), which loses integer precision once
the dividend exceeds 2^53.  At end-of-file offset 2^53 - 50, header
length 51 and alignment 1, the dividend is 2^53 + 1, the division
rounds to 2^53, and the computed placement lands one byte BEFORE the
current end of file (overwriting the previous entry), while the
smallest aligned offset at or after end-of-file is the end-of-file
offset itself (as `specPlacement`, the spec's exact formula, gives).
So the claimed property fails for large file sizes, although the spec
asserts it for all sizes. -/
theorem C1_float_placement_bug :
    pyPlacement 9007199254740942 51 1 = 9007199254740941 ∧
    pyPlacement 9007199254740942 51 1 < 9007199254740942 ∧
    specPlacement 9007199254740942 51 1 = 9007199254740942 ∧
    pyPlacement 9007199254740942 51 1 ≠ specPlacement 9007199254740942 51 1 :=
  ⟨by decide, by decide, by decide, by decide⟩

lemma collectDatas_spec (alignment : ℕ) :
    ∀ (files : List FileInfo) (eof : ℕ) (ds : List EntryData) (e2 : ℕ),
      collectDatas alignment files eof = some (ds, e2) →
      ds.length = files.countP (fun f => f.st.st_isreg) ∧
      ds.map (fun e => e.path) =
        (files.filter (fun f => f.st.st_isreg)).map (fun f => f.path) := by
  intro files
  induction files with
  | nil =>
    intro eof ds e2 h
    simp only [collectDatas, Option.some.injEq, Prod.mk.injEq] at h
    obtain ⟨h1, _⟩ := h
    subst h1
    simp
  | cons f fs ih =>
    intro eof ds e2 h
    cases hreg : f.st.st_isreg with
    | false =>
      simp only [collectDatas, hreg, if_pos] at h
      obtain ⟨hlen, hmap⟩ := ih eof ds e2 h
      constructor
      · rw [hlen, List.countP_cons]
        simp [hreg]
      · rw [hmap]
        congr 1
        simp [List.filter_cons, hreg]
    | true =>
      simp only [collectDatas, hreg] at h
      rw [if_neg (by simp)] at h
      rcases hmk : make_file_header f.path f.st
          (compute_crc32 (progress (chunksOf 63356
            (f.content.take f.st.st_size)) 33554432).1) with _ | header
      · simp only [hmk] at h
        exact absurd h (by simp)
      · simp only [hmk] at h
        rcases hrec : collectDatas alignment fs
            (max eof ((pyPlacement eof header.length alignment).toNat +
              header.length + f.st.st_size)) with _ | ⟨rest, eofF⟩
        · simp only [hrec] at h
          exact absurd h (by simp)
        · simp only [hrec] at h
          simp only [Option.some.injEq, Prod.mk.injEq] at h
          obtain ⟨h1, _⟩ := h
          subst h1
          obtain ⟨hlen, hmap⟩ := ih _ rest eofF hrec
          constructor
          · simp only [List.length_cons, List.countP_cons, hreg]
            simp [hlen]
          · simp only [List.map_cons, List.filter_cons, hreg]
            simp [hmap]

lemma centralBytesOf_mapM :
    ∀ (ds : List EntryData) (cb : List ℕ), centralBytesOf ds = some cb →
      ∃ hs, List.mapM (fun e => make_central_header e.path e.st e.crc e.offset)
          ds = some hs ∧ cb = hs.flatten := by
  intro ds
  induction ds with
  | nil =>
    intro cb h
    simp only [centralBytesOf, Option.some.injEq] at h
    subst h
    exact ⟨[], rfl, by simp⟩
  | cons e es ih =>
    intro cb h
    rcases hmk : make_central_header e.path e.st e.crc e.offset with _ | hd
    · rw [centralBytesOf, hmk] at h
      simp at h
    · rw [centralBytesOf, hmk] at h
      rcases hrec : centralBytesOf es with _ | r
      · rw [hrec] at h
        simp at h
      · rw [hrec] at h
        simp only [Option.some.injEq] at h
        subst h
        obtain ⟨hs, hmapm, hflat⟩ := ih r hrec
        refine ⟨hd :: hs, ?_, ?_⟩
        · rw [List.mapM_cons, hmk, hmapm]
          rfl
        · simp [hflat]

/-- C4: a path whose `lstat` result is not a regular file is skipped
without error and contributes no entry; both entry-count slots of the
ZIP64 end-of-central-directory record (bytes 24..31 and 32..39) equal
the number of regular files actually archived, and its
central-directory-size field (bytes 40..47) is the byte length of the
central directory; an empty path list produces a trailer with entry
count 0 and central-directory size 0. -/
theorem C4_entry_counts (alignment : ℕ) (files : List FileInfo) :
    ((executeModel alignment files).elim True fun res =>
      res.datas.length = files.countP (fun f => f.st.st_isreg) ∧
      (res.eocd64.drop 24).take 8 = u64le res.datas.length ∧
      (res.eocd64.drop 32).take 8 = u64le res.datas.length ∧
      (res.eocd64.drop 40).take 8 = u64le res.centralBytes.length) ∧
    (∀ f : FileInfo, f.st.st_isreg = false →
      executeModel alignment (f :: files) = executeModel alignment files) ∧
    executeModel alignment [] = some ⟨[], [], 0, 0,
      u32le 0x06064b50 ++ u64le 44 ++ u16le 45 ++ u16le 45 ++ u32le 0 ++
        u32le 0 ++ u64le 0 ++ u64le 0 ++ u64le 0 ++ u64le 0,
      u32le 0x07064b50 ++ u32le 0 ++ u64le 0 ++ u32le 1,
      u32le 0x06054b50 ++ u16le 0 ++ u16le 0 ++ u16le 0xffff ++
        u16le 0xffff ++ u32le 0xffffffff ++ u32le 0xffffffff ++ u16le 0⟩ := by
  refine ⟨?_, ?_, ?_⟩
  · rcases hcd : collectDatas alignment files 0 with _ | ⟨ds, eof⟩
    · simp [executeModel, hcd]
    · rcases hcb : centralBytesOf ds with _ | cb
      · simp [executeModel, hcd, hcb]
      · have hexec : executeModel alignment files = some
            ⟨ds, cb, eof, eof + cb.length,
              u32le 0x06064b50 ++ u64le 44 ++ u16le 45 ++ u16le 45 ++
                u32le 0 ++ u32le 0 ++ u64le ds.length ++ u64le ds.length ++
                u64le (eof + cb.length - eof) ++ u64le eof,
              u32le 0x07064b50 ++ u32le 0 ++ u64le (eof + cb.length) ++
                u32le 1,
              u32le 0x06054b50 ++ u16le 0 ++ u16le 0 ++ u16le 0xffff ++
                u16le 0xffff ++ u32le 0xffffffff ++ u32le 0xffffffff ++
                u16le 0⟩ := by
          simp only [executeModel, hcd, hcb]
        rw [hexec]
        simp only [Option.elim_some]
        refine ⟨(collectDatas_spec alignment files 0 ds eof hcd).1, rfl, rfl,
          ?_⟩
        rw [show eof + cb.length - eof = cb.length by omega]
        rfl
  · intro f hf
    have hcoll : collectDatas alignment (f :: files) 0 =
        collectDatas alignment files 0 := by
      simp only [collectDatas]
      rw [if_pos hf]
    simp only [executeModel, hcoll]
  · rfl

/-- Witness for C4's skip clause: a non-regular path contributes
nothing. -/
theorem C4_entry_counts_witness :
    executeModel 4096 [⟨[100], ⟨0, ⟨2021, 3, 4, 5, 6, 7⟩, false⟩, []⟩] =
      executeModel 4096 [] :=
  (C4_entry_counts 4096 []).2.1 ⟨[100], ⟨0, ⟨2021, 3, 4, 5, 6, 7⟩, false⟩, []⟩
    rfl

/-- C5: entries are collected (and their local headers written) in
exactly the order the caller supplies the paths, restricted to regular
files, and the central directory is the concatenation of one central
header per collected entry in that same order — never reordered, in
particular never size-sorted. -/
theorem C5_order_preserved (alignment : ℕ) (files : List FileInfo) :
    (executeModel alignment files).elim True fun res =>
      res.datas.map (fun e => e.path) =
        (files.filter (fun f => f.st.st_isreg)).map (fun f => f.path) ∧
      ∃ hs, List.mapM (fun e => make_central_header e.path e.st e.crc e.offset)
          res.datas = some hs ∧ res.centralBytes = hs.flatten := by
  rcases hcd : collectDatas alignment files 0 with _ | ⟨ds, eof⟩
  · simp [executeModel, hcd]
  · rcases hcb : centralBytesOf ds with _ | cb
    · simp [executeModel, hcd, hcb]
    · simp only [executeModel, hcd, hcb, Option.elim_some]
      exact ⟨(collectDatas_spec alignment files 0 ds eof hcd).2,
        centralBytesOf_mapM ds cb hcb⟩

/-- C9: `compute_crc32` is deterministic and its result depends only on
the concatenation of the yielded chunks, not on how the content is
split: the running CRC-32 fold over any chunking equals the CRC-32 of
the whole byte sequence, so any two chunkings of the same unmodified
content give identical 32-bit values. -/
theorem C9_crc_chunking_independent (c1 c2 : List (List ℕ))
    (h : c1.flatten = c2.flatten) :
    compute_crc32 c1 = compute_crc32 c2 ∧
    compute_crc32 c1 = crc32 c1.flatten 0 := by
  rw [compute_crc32_eq_join, compute_crc32_eq_join, h]
  exact ⟨rfl, rfl⟩

/-- Witness for C9: two different chunkings of the bytes 1, 2, 3. -/
theorem C9_crc_chunking_independent_witness :
    ([[1, 2], [3]] : List (List ℕ)).flatten =
      ([[1], [2, 3]] : List (List ℕ)).flatten ∧
    compute_crc32 [[1, 2], [3]] = compute_crc32 [[1], [2, 3]] :=
  ⟨by decide, (C9_crc_chunking_independent [[1, 2], [3]] [[1], [2, 3]] (by decide)).1⟩

/-- C10: the `progress` wrapper is transparent with respect to data: it
yields exactly the input chunks, in order, with unchanged contents, so
both the checksum computed through it and the bytes written through it
are identical to those of the unwrapped stream. -/
theorem C10_progress_transparent (it : List (List ℕ)) (each : ℕ) :
    (progress it each).1 = it ∧
    compute_crc32 (progress it each).1 = compute_crc32 it ∧
    ∀ (d : ℕ → ℕ) (pos : ℕ),
      write_all d pos (progress it each).1 = write_all d pos it :=
  ⟨progress_fst it each, by rw [progress_fst],
   fun d pos => by rw [progress_fst]⟩

end ZipRef
